import Mathlib

/-!
Verification of the tagger/verbalizer WFST pipeline core of the
NeMo-text-processing repository.

A pynini weighted transducer is shallowly embedded as a nondeterministic
string transformer: a function from an input character list to the finite
list of `(output, remaining input)` parses.  A pair `(o, [])` is a complete
accepting path relating the whole input to `o`.  The weighted-transducer
algebra (pynini) is external to the repository; its primitives
(concatenation, union, closure, cross, composition, cdrewrite) are given
their standard relational semantics below.  Kleene closure is realised with
input-consuming iterations only; every closure in the embedded code is
applied to transducers that consume at least one input character per
iteration, for which this is the exact closure semantics.
-/

/-- A transducer (pynini Fst): maps an input to the list of (output, rest-of-input) parses. -/
abbrev Fst : Type := List Char → List (List Char × List Char)

/-- String literals as character lists. -/
def tl (s : String) : List Char := s.toList

/-- Match a literal off the front of the input, returning the rest. -/
def takeLit : List Char → List Char → Option (List Char)
  | [], i => some i
  | _ :: _, [] => none
  | x :: xs, c :: cs => if c = x then takeLit xs cs else none

/-- pynini.cross on string literals: consume exactly `x`, emit `y`. -/
def cross (x y : List Char) : Fst := fun i =>
  match takeLit x i with
  | some r => [(y, r)]
  | none => []

/-- A string-literal acceptor (pynini.accep): consume `s`, emit `s`. -/
def acc (s : List Char) : Fst := cross s s

/-- pynutil.delete on a string literal: consume `s`, emit nothing. -/
def pdel (s : List Char) : Fst := cross s []

/-- pynutil.insert: consume nothing, emit `s`. -/
def pins (s : List Char) : Fst := cross [] s

/-- pynini.cross of an acceptor onto a fixed output string. -/
def crossA (a : Fst) (y : List Char) : Fst := fun i =>
  (a i).map (fun p => (y, p.2))

/-- Concatenation (pynini `+`): run `a`, then `b` on the rest; outputs concatenate. -/
def pseq (a b : Fst) : Fst := fun i =>
  (a i).flatMap (fun p => (b p.2).map (fun q => (p.1 ++ q.1, q.2)))

/-- Union (pynini `|`). -/
def punion (a b : Fst) : Fst := fun i => a i ++ b i

/-- A single-character class acceptor. -/
def charIn (p : Char → Bool) : Fst := fun i =>
  match i with
  | [] => []
  | c :: r => if p c then [([c], r)] else []

/-- Kleene closure with fuel, each iteration consuming at least one character. -/
def starN (a : Fst) : Nat → Fst
  | 0 => fun i => [([], i)]
  | n + 1 => fun i =>
      ([], i) ::
        ((a i).filter (fun p => p.2.length < i.length)).flatMap
          (fun p => (starN a n p.2).map (fun q => (p.1 ++ q.1, q.2)))

/-- pynini.closure (zero or more): at most `i.length` consuming iterations fit. -/
def star (a : Fst) : Fst := fun i => starN a i.length i

/-- pynini.closure(a, 1): one or more. -/
def plus (a : Fst) : Fst := pseq a (star a)

/-- pynini.closure(a, 0, 1): zero or one. -/
def opt (a : Fst) : Fst := punion (pins []) a

/-- Composition (pynini `@`) of whole-string transductions: feed every
complete output of `a` to `b`. -/
def pcompose (a b : Fst) : Fst := fun i =>
  ((a i).filter (fun p => p.2.isEmpty)).flatMap (fun p => b p.1)

/-- `t` relates the whole input `i` to output `o`. -/
def Accepts (t : Fst) (i o : List Char) : Prop := (o, []) ∈ t i

/-- `i` is in the input-side domain of `t` (some complete accepting path). -/
def Dom (t : Fst) (i : List Char) : Prop := ∃ o, Accepts t i o

instance decAccepts (t : Fst) (i o : List Char) : Decidable (Accepts t i o) :=
  inferInstanceAs (Decidable ((o, []) ∈ t i))


/-! ### Constants of `text_normalization/ja/graph_utils.py` -/

/-- The non-breaking space character U+00A0 (`NEMO_NON_BREAKING_SPACE`). -/
def NEMO_NON_BREAKING_SPACE : Char := Char.ofNat 160

/-- The quote character. -/
def quoteChar : Char := Char.ofNat 34

/-- Character predicate of `NEMO_WHITE_SPACE`. -/
def isNemoWhiteSpace (c : Char) : Bool :=
  c = ' ' || c = '\t' || c = '\n' || c = '\r' || c = NEMO_NON_BREAKING_SPACE

/-- `NEMO_CHAR = utf8.VALID_UTF8_CHAR`: any character. -/
def NEMO_CHAR : Fst := charIn (fun _ => true)

/-- `NEMO_WHITE_SPACE = pynini.union(" ", "\t", "\n", "\r", u" ")`. -/
def NEMO_WHITE_SPACE : Fst := charIn isNemoWhiteSpace

/-- `NEMO_NOT_QUOTE = difference(NEMO_CHAR, '"')`. -/
def NEMO_NOT_QUOTE : Fst := charIn (fun c => c != quoteChar)

/-- `NEMO_SIGMA = pynini.closure(NEMO_CHAR)`. -/
def NEMO_SIGMA : Fst := star NEMO_CHAR

/-- `delete_space = pynutil.delete(pynini.closure(NEMO_WHITE_SPACE))`. -/
def delete_space : Fst := crossA (star NEMO_WHITE_SPACE) []

/-- `delete_zero_or_one_space = pynutil.delete(pynini.closure(NEMO_WHITE_SPACE, 0, 1))`. -/
def delete_zero_or_one_space : Fst := crossA (opt NEMO_WHITE_SPACE) []

/-- `insert_space = pynutil.insert(" ")`. -/
def insert_space : Fst := pins [' ']

/-- `delete_extra_space = pynini.cross(pynini.closure(NEMO_WHITE_SPACE, 1), " ")`. -/
def delete_extra_space : Fst := crossA (plus NEMO_WHITE_SPACE) [' ']

/-- `delete_preserve_order` (graph_utils lines 88-91): a closure over deleting
`" preserve_order: true"` or a `" field_order: \"<char>\""` marker; the single
`NEMO_NOT_QUOTE` character of the field name is kept, not deleted, exactly as
in the source. -/
def delete_preserve_order : Fst :=
  star
    (punion (pdel (tl " preserve_order: true"))
      (pseq (pdel (tl " field_order: \x22")) (pseq NEMO_NOT_QUOTE (pdel (tl "\x22")))))

/-- The consonant class `_c` of the pluralisation rules. -/
def consC : Fst :=
  charIn (fun c =>
    c = 'b' || c = 'c' || c = 'd' || c = 'f' || c = 'g' || c = 'h' || c = 'j' ||
    c = 'k' || c = 'l' || c = 'm' || c = 'n' || c = 'p' || c = 'q' || c = 'r' ||
    c = 's' || c = 't' || c = 'v' || c = 'w' || c = 'x' || c = 'y' || c = 'z')

/-- `_ies = NEMO_SIGMA + _c + pynini.cross("y", "ies")`. -/
def rule_ies : Fst := pseq NEMO_SIGMA (pseq consC (cross (tl "y") (tl "ies")))

/-- The suffix class `pynini.union("s", "sh", "ch", "x", "z")` of `_es`. -/
def esSuffix : Fst :=
  punion (acc (tl "s"))
    (punion (acc (tl "sh")) (punion (acc (tl "ch")) (punion (acc (tl "x")) (acc (tl "z")))))

/-- `_es = NEMO_SIGMA + pynini.union("s", "sh", "ch", "x", "z") + pynutil.insert("es")`. -/
def rule_es : Fst := pseq NEMO_SIGMA (pseq esSuffix (pins (tl "es")))

/-- `_s = NEMO_SIGMA + pynutil.insert("s")`. -/
def rule_s : Fst := pseq NEMO_SIGMA (pins (tl "s"))

/-- Modelled from the spec: `plurals._priority_union(q, r, sigma)` belongs to the
external weighted-transducer library (pynini.examples), not to this repository.
Per the spec glossary, priority union is the "combinator where only the
highest-priority matching alternative's output is used, suppressing
lower-priority matches on the same input": on inputs in the domain of `q` it
behaves as `q`, elsewhere as `r`. -/
def priority_union (q r : Fst) : Fst := fun i =>
  let qc := (q i).filter (fun p => p.2.isEmpty)
  if qc.isEmpty then r i else qc

/-- Modelled from the spec: `suppletive = pynini.string_file("data/suppletive.tsv")`;
the TSV of suppletive plural forms is per-locale data not present under `src/`,
so the exception lookup table is kept abstract as a lookup map `supp` from
singular to plural form.  The resulting transducer consumes a whole key and
emits its table value. -/
def suppletive (supp : List Char → Option (List Char)) : Fst := fun i =>
  match supp i with
  | some o => [(o, [])]
  | none => []

/-- `graph_plural = _priority_union(suppletive, _priority_union(_ies,
_priority_union(_es, _s, NEMO_SIGMA), NEMO_SIGMA), NEMO_SIGMA)`,
parameterised by the abstract suppletive table. -/
def graph_plural (supp : List Char → Option (List Char)) : Fst :=
  priority_union (suppletive supp)
    (priority_union rule_ies (priority_union rule_es rule_s))

/-- `SINGULAR_TO_PLURAL = graph_plural`. -/
def SINGULAR_TO_PLURAL (supp : List Char → Option (List Char)) : Fst := graph_plural supp

/-- `PLURAL_TO_SINGULAR = pynini.invert(graph_plural)`: inversion of the
transduction relation (pynini.invert is an external WTL primitive; it swaps
the input and output sides of every path). -/
def PLURAL_TO_SINGULAR (supp : List Char → Option (List Char)) (p s : List Char) : Prop :=
  Accepts (graph_plural supp) s p

instance decPluralToSingular (supp : List Char → Option (List Char)) (p s : List Char) :
    Decidable (PLURAL_TO_SINGULAR supp p s) :=
  inferInstanceAs (Decidable (Accepts (graph_plural supp) s p))

/-- The uppercase ASCII letters, in order (`string.ascii_uppercase`). -/
def ascii_uppercase : List Char := tl "ABCDEFGHIJKLMNOPQRSTUVWXYZ"

/-- The lowercase ASCII letters, in order (`string.ascii_lowercase`). -/
def ascii_lowercase : List Char := tl "abcdefghijklmnopqrstuvwxyz"

/-- `TO_LOWER = pynini.union(*[pynini.cross(x, y) for x, y in zip(uppercase, lowercase)])`. -/
def TO_LOWER : Fst := fun i =>
  (ascii_uppercase.zip ascii_lowercase).flatMap (fun p => cross [p.1] [p.2] i)

/-- `MIN_NEG_WEIGHT = -0.0001` (as an exact rational). -/
def MIN_NEG_WEIGHT : ℚ := -(1 / 10000)

/-- `MIN_POS_WEIGHT = 0.0001` (as an exact rational). -/
def MIN_POS_WEIGHT : ℚ := 1 / 10000

/-- `capitalized_input_graph(graph)` with both optional weights absent:
`capitalized_graph = pynini.compose(TO_LOWER + NEMO_SIGMA, graph);
graph |= capitalized_graph`. -/
def capitalized_input_graph (graph : Fst) : Fst :=
  punion graph (pcompose (pseq TO_LOWER NEMO_SIGMA) graph)

/-- `convert_space(fst) = fst @ cdrewrite(cross(" ", " "), "", "", NEMO_SIGMA)`:
the obligatory context-free single-character rewrite is the character map
replacing every space by a non-breaking space. -/
def convert_space (t : Fst) : Fst :=
  pcompose t (fun i => [(i.map (fun c => if c = ' ' then NEMO_NON_BREAKING_SPACE else c), [])])

/-! ### `GraphFst.add_tokens` / `GraphFst.delete_tokens` -/

/-- `GraphFst.add_tokens(fst) = pynutil.insert(f"{self.name} {{ ") + fst + pynutil.insert(" }")`. -/
def add_tokens (name : List Char) (t : Fst) : Fst :=
  pseq (pins (name ++ tl " \x7b ")) (pseq t (pins (tl " \x7d")))

/-- The character map of `cdrewrite(cross(u" ", " "), "", "", NEMO_SIGMA)`. -/
def nbspFix (c : Char) : Char := if c = NEMO_NON_BREAKING_SPACE then ' ' else c

/-- `GraphFst.delete_tokens(fst)`: delete the `name`, `{`, `}` framing with
`delete_space` in between, then compose with the obligatory rewrite of every
non-breaking space to an ordinary space. -/
def delete_tokens (name : List Char) (t : Fst) : Fst :=
  pcompose
    (pseq (pdel name)
      (pseq delete_space
        (pseq (pdel (tl "\x7b"))
          (pseq delete_space (pseq t (pseq delete_space (pdel (tl "\x7d"))))))))
    (fun i => [(i.map nbspFix, [])])
/-! ### Weighted layer (for the weight parameters of `capitalized_input_graph`)

A weighted path is a parse together with its accumulated cost (pynini's
tropical weight, modelled as an exact rational). -/

/-- A weighted transducer: parses paired with path costs. -/
abbrev WFst : Type := List Char → List ((List Char × List Char) × ℚ)

/-- Lift an unweighted transducer: every path costs 0. -/
def wlift (t : Fst) : WFst := fun i => (t i).map (fun p => (p, 0))

/-- `pynutil.add_weight(t, w)`: add `w` to the cost of every path. -/
def add_weight (t : WFst) (w : ℚ) : WFst := fun i => (t i).map (fun p => (p.1, p.2 + w))

/-- Weighted union (`|=`). -/
def wunion (a b : WFst) : WFst := fun i => a i ++ b i

/-- Weighted whole-string composition: costs accumulate additively. -/
def wcompose (a b : WFst) : WFst := fun i =>
  ((a i).filter (fun p => p.1.2.isEmpty)).flatMap
    (fun p => (b p.1.1).map (fun q => (q.1, p.2 + q.2)))

/-- `capitalized_input_graph(graph, original_graph_weight, capitalized_graph_weight)`
with its two optional weight arguments (`None` when absent), exactly following
the source: the capitalized branch is built from the unweighted `graph`, then
each branch optionally receives its weight, then the branches are unioned. -/
def capitalized_input_graph_w (graph : WFst)
    (original_graph_weight capitalized_graph_weight : Option ℚ) : WFst :=
  let capitalized_graph := wcompose (wlift (pseq TO_LOWER NEMO_SIGMA)) graph
  let graph1 := match original_graph_weight with
    | some w => add_weight graph w
    | none => graph
  let capitalized1 := match capitalized_graph_weight with
    | some w => add_weight capitalized_graph w
    | none => capitalized_graph
  wunion graph1 capitalized1

/-- `t` relates `i` to `o` by some complete weighted path. -/
def WAccepts (t : WFst) (i o : List Char) : Prop := ∃ c, ((o, []), c) ∈ t i

/-! ### `inverse_text_normalization/es/verbalizers/date.py` -/

namespace EsDate

/-- Modelled from the spec: `data/dates/months.tsv` is per-locale data not
present under `src/`; per the verbalizer's documented example
(`month: "enero"` verbalises to `enero`), the table maps each lowercase month
name to itself. -/
def months_tsv : List (List Char × List Char) :=
  [(tl "enero", tl "enero"), (tl "febrero", tl "febrero"), (tl "marzo", tl "marzo")]

/-- Modelled from the spec: `data/dates/months_cased.tsv`, the cased month
forms, likewise mapped to themselves. -/
def months_cased_tsv : List (List Char × List Char) :=
  [(tl "Enero", tl "Enero"), (tl "Febrero", tl "Febrero"), (tl "Marzo", tl "Marzo")]

/-- `pynini.string_file`: the union of one cross per table line. -/
def string_file (tbl : List (List Char × List Char)) : Fst := fun i =>
  tbl.flatMap (fun p => cross p.1 p.2 i)

/-- `graph_month = string_file(months.tsv) | string_file(months_cased.tsv)`. -/
def graph_month : Fst := punion (string_file months_tsv) (string_file months_cased_tsv)

/-- The `year` branch: `delete("year:") + delete_space + delete("\"") +
closure(NEMO_NOT_QUOTE, 1) + delete("\"")`. -/
def year : Fst :=
  pseq (pdel (tl "year:"))
    (pseq delete_space
      (pseq (pdel (tl "\x22")) (pseq (plus NEMO_NOT_QUOTE) (pdel (tl "\x22")))))

/-- The `month` field: `delete("month:") + delete_space + delete("\"") +
graph_month + delete("\"")`. -/
def month : Fst :=
  pseq (pdel (tl "month:"))
    (pseq delete_space (pseq (pdel (tl "\x22")) (pseq graph_month (pdel (tl "\x22")))))

/-- The `day` field: `delete("day:") + delete_space + delete("\"") +
closure(NEMO_NOT_QUOTE, 1) + delete("\"")`. -/
def day : Fst :=
  pseq (pdel (tl "day:"))
    (pseq delete_space
      (pseq (pdel (tl "\x22")) (pseq (plus NEMO_NOT_QUOTE) (pdel (tl "\x22")))))

/-- `graph_dm = day + delete_extra_space + pynutil.insert("de") + insert_space + month`. -/
def graph_dm : Fst :=
  pseq day (pseq delete_extra_space (pseq (pins (tl "de")) (pseq insert_space month)))

/-- `optional_preserve_order`: a closure deleting either
`preserve_order: true` or a `field_order: "<char>"` marker (the single
`NEMO_NOT_QUOTE` field-name character is kept, exactly as in the source),
each followed by `delete_space`. -/
def optional_preserve_order : Fst :=
  star
    (punion
      (pseq (pdel (tl "preserve_order:"))
        (pseq delete_space (pseq (pdel (tl "true")) delete_space)))
      (pseq (pdel (tl "field_order:"))
        (pseq delete_space
          (pseq (pdel (tl "\x22"))
            (pseq NEMO_NOT_QUOTE (pseq (pdel (tl "\x22")) delete_space))))))

/-- `final_graph = (graph_dm | year) + delete_space + optional_preserve_order`. -/
def final_graph : Fst :=
  pseq (punion graph_dm year) (pseq delete_space optional_preserve_order)

/-- `DateFst.fst = self.delete_tokens(final_graph)` with `name="date"`. -/
def dateFst : Fst := delete_tokens (tl "date") final_graph

end EsDate

/-! ### `inverse_text_normalization/hi/verbalizers/verbalize_final.py`

`VerbalizeFst` and `WordFst` are classes of this repository that are not under
`src/`; the per-token verbalizer `types = verbalize | word` is therefore kept
abstract as a transducer parameter. -/

namespace HiVerbalize

/-- One `tokens { ... }` block of `VerbalizeFinalFst`:
`delete("tokens") + delete_space + delete("{") + delete_space + types +
delete_space + delete("}")`. -/
def tokenBlock (types : Fst) : Fst :=
  pseq (pdel (tl "tokens"))
    (pseq delete_space
      (pseq (pdel (tl "\x7b"))
        (pseq delete_space (pseq types (pseq delete_space (pdel (tl "\x7d")))))))

/-- `graph = delete_space + closure(graph + delete_extra_space) + graph + delete_space`. -/
def verbalize_final (types : Fst) : Fst :=
  pseq delete_space
    (pseq (star (pseq (tokenBlock types) delete_extra_space))
      (pseq (tokenBlock types) delete_space))

end HiVerbalize
/-! ### Membership lemmas for the combinators -/


/-! ### Definitions used by the claim statements and witnesses -/

/-- Accepting runs of a Kleene closure: a chain of iterations, each consuming
at least one input character. -/
inductive StarRun (a : Fst) : List Char → List Char → List Char → Prop
  | nil (i : List Char) : StarRun a i [] i
  | cons {i o1 m o2 r : List Char} : (o1, m) ∈ a i → m.length < i.length →
      StarRun a m o2 r → StarRun a i (o1 ++ o2) r

/-- A word consisting only of NEMO whitespace characters. -/
def WsOnly (w : List Char) : Prop := ∀ c ∈ w, isNemoWhiteSpace c = true

instance decWsOnly (w : List Char) : Decidable (WsOnly w) :=
  inferInstanceAs (Decidable (∀ c ∈ w, isNemoWhiteSpace c = true))

/-- A sample suppletive exception table, used to instantiate the abstract
table in witnesses. -/
def suppEx : List Char → Option (List Char) := fun w =>
  if w = tl "foot" then some (tl "feet") else none

/-- The framed token record `add_tokens` produces around content `x`. -/
def wrapS (name x : List Char) : List Char := name ++ tl " \x7b " ++ x ++ tl " \x7d"

/-- The relation `delete_tokens(add_tokens(x))`: wrap valid field content with
the classify-side framing, then unwrap with the verbalize-side transducer. -/
def round_trip (name x i o : List Char) : Prop :=
  ∃ m, Accepts (add_tokens name (acc x)) i m ∧ Accepts (delete_tokens name (acc x)) m o

/-- The field content used by the C1 counterexample: valid field content
containing a non-breaking space (as the tagger's `convert_space` produces). -/
def c1x : List Char := ['a', NEMO_NON_BREAKING_SPACE, 'b']

/-- The token record of the spec's Spanish date scenario:
`date { day: "1" month: "enero" preserve_order: true }`. -/
def dateRecDM : List Char :=
  tl "date \x7b day: \x221\x22 month: \x22enero\x22 preserve_order: true \x7d"

/-- The same record without the `preserve_order` marker. -/
def dateRecDMPlain : List Char := tl "date \x7b day: \x221\x22 month: \x22enero\x22 \x7d"

/-- A record carrying the marker whose fields appear in month-day literal order. -/
def dateRecMD : List Char :=
  tl "date \x7b month: \x22enero\x22 day: \x221\x22 preserve_order: true \x7d"

/-- The month-day literal order without the marker. -/
def dateRecMDPlain : List Char := tl "date \x7b month: \x22enero\x22 day: \x221\x22 \x7d"

/-- `capitalize_first_letter(s)`: `s` with only its first character upper-cased. -/
def capitalize_first_letter : List Char → List Char
  | [] => []
  | c :: r => c.toUpper :: r

/-- A transducer whose partial parses are exactly complete parses of an input
split — true of every genuine pynini transducer (used for the abstract
per-token verbalizer `types = VerbalizeFst | WordFst`, whose classes are not
under `src/`). -/
def FstLike (t : Fst) : Prop :=
  ∀ i o r, (o, r) ∈ t i ↔ ∃ c, i = c ++ r ∧ (o, []) ∈ t c

/-- Join words with exactly one space between adjacent words. -/
def joinSp : List (List Char) → List Char
  | [] => []
  | [a] => a
  | a :: b :: rest => a ++ ' ' :: joinSp (b :: rest)

/-- A nonempty word with no leading and no trailing whitespace character. -/
def NoEdgeWs (u : List Char) : Prop :=
  u ≠ [] ∧ (∀ c, u.head? = some c → isNemoWhiteSpace c = false) ∧
    (∀ c, u.getLast? = some c → isNemoWhiteSpace c = false)

/-- The canonical text of one `tokens { ... }` block. -/
def tokensBlockText (c : List Char) : List Char := tl "tokens \x7b " ++ c ++ tl " \x7d"

/-- A sentence of blocks: each triple is (block content, its verbalization,
the whitespace separating it from the next block), then a last block and
trailing whitespace. -/
def sentText : List (List Char × List Char × List Char) → List Char → List Char → List Char
  | [], clast, wlast => tokensBlockText clast ++ wlast
  | (c, _, w) :: ps, clast, wlast => tokensBlockText c ++ w ++ sentText ps clast wlast

theorem takeLit_eq_some {x i r : List Char} : takeLit x i = some r ↔ i = x ++ r := by
  induction x generalizing i with
  | nil => simp [takeLit]
  | cons a xs ih =>
    cases i with
    | nil => simp [takeLit]
    | cons c cs =>
      by_cases h : c = a
      · subst h
        simpa [takeLit] using ih
      · simp only [takeLit, if_neg h, List.cons_append, List.cons.injEq]
        constructor
        · intro h'
          exact Option.noConfusion h'
        · rintro ⟨h1, _⟩
          exact absurd h1 h

theorem mem_cross {x y i o r : List Char} :
    (o, r) ∈ cross x y i ↔ o = y ∧ i = x ++ r := by
  unfold cross
  cases h : takeLit x i with
  | none =>
    simp only [List.not_mem_nil, false_iff]
    rintro ⟨rfl, rfl⟩
    rw [takeLit_eq_some.mpr rfl] at h
    exact Option.noConfusion h
  | some r' =>
    rw [takeLit_eq_some] at h
    subst h
    simp only [List.mem_singleton, Prod.mk.injEq]
    constructor
    · rintro ⟨rfl, rfl⟩
      exact ⟨rfl, rfl⟩
    · rintro ⟨rfl, h2⟩
      exact ⟨rfl, (List.append_cancel_left h2).symm⟩

theorem mem_acc {s i o r : List Char} : (o, r) ∈ acc s i ↔ o = s ∧ i = s ++ r :=
  mem_cross

theorem mem_pdel {s i o r : List Char} : (o, r) ∈ pdel s i ↔ o = [] ∧ i = s ++ r :=
  mem_cross

theorem mem_pins {s i o r : List Char} : (o, r) ∈ pins s i ↔ o = s ∧ i = r := by
  simpa using (mem_cross (x := []) (y := s) (i := i) (o := o) (r := r))

theorem mem_crossA {a : Fst} {y i o r : List Char} :
    (o, r) ∈ crossA a y i ↔ o = y ∧ ∃ u, (u, r) ∈ a i := by
  simp only [crossA, List.mem_map]
  constructor
  · rintro ⟨⟨u, ru⟩, hm, heq⟩
    obtain ⟨h1, h2⟩ := Prod.mk.injEq .. ▸ heq
    subst h2
    exact ⟨h1.symm, u, hm⟩
  · rintro ⟨rfl, u, hm⟩
    exact ⟨(u, r), hm, rfl⟩

theorem mem_pseq {a b : Fst} {i o r : List Char} :
    (o, r) ∈ pseq a b i ↔ ∃ o1 m o2, (o1, m) ∈ a i ∧ (o2, r) ∈ b m ∧ o = o1 ++ o2 := by
  simp only [pseq, List.mem_flatMap, List.mem_map]
  constructor
  · rintro ⟨⟨o1, m⟩, hm, ⟨o2, r2⟩, hb, heq⟩
    obtain ⟨h1, h2⟩ := Prod.mk.injEq .. ▸ heq
    subst h2
    exact ⟨o1, m, o2, hm, hb, h1.symm⟩
  · rintro ⟨o1, m, o2, ha, hb, rfl⟩
    exact ⟨(o1, m), ha, (o2, r), hb, rfl⟩

theorem mem_punion {a b : Fst} {i : List Char} {p : List Char × List Char} :
    p ∈ punion a b i ↔ p ∈ a i ∨ p ∈ b i := by
  simp [punion]

theorem mem_charIn {p : Char → Bool} {i o r : List Char} :
    (o, r) ∈ charIn p i ↔ ∃ c, p c = true ∧ i = c :: r ∧ o = [c] := by
  cases i with
  | nil => simp [charIn]
  | cons c cs =>
    by_cases h : p c
    · simp only [charIn, h, if_pos, List.mem_singleton, Prod.mk.injEq]
      constructor
      · rintro ⟨rfl, rfl⟩
        exact ⟨c, h, rfl, rfl⟩
      · rintro ⟨c', _, hc, rfl⟩
        cases hc
        exact ⟨rfl, rfl⟩
    · simp only [charIn, h, Bool.false_eq_true, if_false, List.not_mem_nil, false_iff]
      rintro ⟨c', hc', hcc, rfl⟩
      cases hcc
      exact h hc'

theorem mem_pcompose {a b : Fst} {i o r : List Char} :
    (o, r) ∈ pcompose a b i ↔ ∃ m, (m, []) ∈ a i ∧ (o, r) ∈ b m := by
  simp only [pcompose, List.mem_flatMap, List.mem_filter, List.isEmpty_iff]
  constructor
  · rintro ⟨⟨m, rm⟩, ⟨hm, h2⟩, hb⟩
    simp only at h2
    subst h2
    exact ⟨m, hm, hb⟩
  · rintro ⟨m, hm, hb⟩
    exact ⟨(m, []), ⟨hm, rfl⟩, hb⟩

theorem mem_starN_sound {a : Fst} {n : Nat} {i o r : List Char} :
    (o, r) ∈ starN a n i → StarRun a i o r := by
  induction n generalizing i o r with
  | zero =>
    intro h
    simp only [starN, List.mem_singleton, Prod.mk.injEq] at h
    obtain ⟨rfl, rfl⟩ := h
    exact StarRun.nil _
  | succ n ih =>
    intro h
    simp only [starN, List.mem_cons, List.mem_flatMap, List.mem_filter, List.mem_map] at h
    rcases h with heq | ⟨⟨o1, m⟩, ⟨hm, hlt⟩, ⟨o2, r2⟩, hs, heq⟩
    · obtain ⟨h1, h2⟩ := Prod.mk.injEq .. ▸ heq
      subst h1
      subst h2
      exact StarRun.nil _
    · obtain ⟨h1, h2⟩ := Prod.mk.injEq .. ▸ heq
      subst h1
      subst h2
      simp only [decide_eq_true_eq] at hlt
      exact StarRun.cons hm hlt (ih hs)

theorem mem_starN_complete {a : Fst} {i o r : List Char} (h : StarRun a i o r) :
    ∀ n, i.length ≤ n → (o, r) ∈ starN a n i := by
  induction h with
  | nil i =>
    intro n _
    cases n with
    | zero => simp [starN]
    | succ n => simp [starN]
  | cons hm hlt _ ih =>
    intro n hn
    cases n with
    | zero => omega
    | succ n =>
      simp only [starN, List.mem_cons, List.mem_flatMap, List.mem_filter, List.mem_map]
      refine Or.inr ⟨_, ⟨hm, by simpa using hlt⟩, _, ih n (by omega), rfl⟩

theorem mem_star {a : Fst} {i o r : List Char} :
    (o, r) ∈ star a i ↔ StarRun a i o r :=
  ⟨mem_starN_sound, fun h => mem_starN_complete h i.length le_rfl⟩
theorem starRun_charIn {p : Char → Bool} {i o r : List Char} :
    StarRun (charIn p) i o r ↔ i = o ++ r ∧ ∀ c ∈ o, p c = true := by
  constructor
  · intro h
    induction h with
    | nil i => exact ⟨rfl, by simp⟩
    | cons hm _ _ ih =>
      rw [mem_charIn] at hm
      obtain ⟨c, hc, rfl, rfl⟩ := hm
      obtain ⟨rfl, hall⟩ := ih
      refine ⟨rfl, ?_⟩
      intro d hd
      rcases List.mem_cons.mp hd with rfl | hd'
      · exact hc
      · exact hall d hd'
  · rintro ⟨rfl, hall⟩
    induction o with
    | nil => exact StarRun.nil r
    | cons c o ih =>
      have hc : p c = true := hall c (List.mem_cons_self ..)
      have step : ([c], o ++ r) ∈ charIn p ((c :: o) ++ r) := by
        rw [mem_charIn]
        exact ⟨c, hc, rfl, rfl⟩
      exact StarRun.cons step (by simp) (ih (fun d hd => hall d (List.mem_cons_of_mem _ hd)))

theorem mem_star_charIn {p : Char → Bool} {i o r : List Char} :
    (o, r) ∈ star (charIn p) i ↔ i = o ++ r ∧ ∀ c ∈ o, p c = true := by
  rw [mem_star, starRun_charIn]

theorem mem_sigma {i o r : List Char} : (o, r) ∈ NEMO_SIGMA i ↔ i = o ++ r := by
  rw [NEMO_SIGMA, NEMO_CHAR, mem_star_charIn]
  simp

theorem mem_plus_charIn {p : Char → Bool} {i o r : List Char} :
    (o, r) ∈ plus (charIn p) i ↔ i = o ++ r ∧ o ≠ [] ∧ ∀ c ∈ o, p c = true := by
  rw [plus, mem_pseq]
  constructor
  · rintro ⟨o1, m, o2, h1, h2, rfl⟩
    rw [mem_charIn] at h1
    obtain ⟨c, hc, rfl, rfl⟩ := h1
    rw [mem_star_charIn] at h2
    obtain ⟨rfl, hall⟩ := h2
    refine ⟨rfl, by simp, ?_⟩
    intro d hd
    rcases List.mem_cons.mp hd with rfl | hd'
    · exact hc
    · exact hall d hd'
  · rintro ⟨rfl, hne, hall⟩
    cases o with
    | nil => exact absurd rfl hne
    | cons c o =>
      refine ⟨[c], o ++ r, o, ?_, ?_, rfl⟩
      · rw [mem_charIn]
        exact ⟨c, hall c (List.mem_cons_self ..), rfl, rfl⟩
      · rw [mem_star_charIn]
        exact ⟨rfl, fun d hd => hall d (List.mem_cons_of_mem _ hd)⟩

theorem mem_delete_space {i o r : List Char} :
    (o, r) ∈ delete_space i ↔ o = [] ∧ ∃ w, i = w ++ r ∧ WsOnly w := by
  rw [delete_space, NEMO_WHITE_SPACE, mem_crossA]
  constructor
  · rintro ⟨rfl, u, hu⟩
    rw [mem_star_charIn] at hu
    exact ⟨rfl, u, hu.1, hu.2⟩
  · rintro ⟨rfl, w, rfl, hw⟩
    exact ⟨rfl, w, mem_star_charIn.mpr ⟨rfl, hw⟩⟩

theorem mem_delete_extra_space {i o r : List Char} :
    (o, r) ∈ delete_extra_space i ↔ o = [' '] ∧ ∃ w, i = w ++ r ∧ w ≠ [] ∧ WsOnly w := by
  rw [delete_extra_space, NEMO_WHITE_SPACE, mem_crossA]
  constructor
  · rintro ⟨rfl, u, hu⟩
    rw [mem_plus_charIn] at hu
    exact ⟨rfl, u, hu.1, hu.2.1, hu.2.2⟩
  · rintro ⟨rfl, w, rfl, hne, hw⟩
    exact ⟨rfl, w, mem_plus_charIn.mpr ⟨rfl, hne, hw⟩⟩

/-! ### Priority union lemmas -/

theorem dom_iff_filter {q : Fst} {i : List Char} :
    Dom q i ↔ ((q i).filter (fun p => p.2.isEmpty)) ≠ [] := by
  constructor
  · rintro ⟨o, ho⟩ hnil
    have hm : (o, []) ∈ (q i).filter (fun p => p.2.isEmpty) :=
      List.mem_filter.mpr ⟨ho, by simp⟩
    rw [hnil] at hm
    exact List.not_mem_nil _ hm
  · intro h
    obtain ⟨⟨o, ro⟩, hm⟩ := List.exists_mem_of_ne_nil _ h
    obtain ⟨hmem, hro⟩ := List.mem_filter.mp hm
    rw [List.isEmpty_iff] at hro
    subst hro
    exact ⟨o, hmem⟩

theorem priority_union_of_dom {q r : Fst} {i : List Char} (h : Dom q i) {o : List Char} :
    Accepts (priority_union q r) i o ↔ Accepts q i o := by
  rw [dom_iff_filter] at h
  unfold Accepts priority_union
  rw [if_neg (by simpa [List.isEmpty_iff] using h)]
  rw [List.mem_filter]
  simp

theorem priority_union_of_not_dom {q r : Fst} {i : List Char} (h : ¬ Dom q i) :
    priority_union q r i = r i := by
  rw [dom_iff_filter, not_not] at h
  unfold priority_union
  rw [if_pos (by simpa [List.isEmpty_iff] using h)]
/-! ### Output shape of the three regular plural rules -/

theorem rule_ies_shape {w o : List Char} (h : Accepts rule_ies w o) :
    ∃ p c, consC [c] = [([c], [])] ∧ w = p ++ [c, 'y'] ∧ o = p ++ [c] ++ tl "ies" := by
  rw [Accepts, rule_ies, mem_pseq] at h
  obtain ⟨o1, m, o2, h1, h2, rfl⟩ := h
  rw [mem_pseq] at h2
  obtain ⟨o3, m2, o4, h3, h4, rfl⟩ := h2
  rw [NEMO_SIGMA, NEMO_CHAR, mem_star_charIn] at h1
  obtain ⟨rfl, -⟩ := h1
  rw [consC, mem_charIn] at h3
  obtain ⟨c, hc, rfl, rfl⟩ := h3
  rw [mem_cross] at h4
  obtain ⟨rfl, h5⟩ := h4
  simp only [tl, List.append_nil] at h5 ⊢
  refine ⟨o1, c, ?_, by simp [h5], by simp⟩
  simp [consC, charIn, hc]

theorem rule_ies_out {w o : List Char} (h : Accepts rule_ies w o) :
    o = w.dropLast ++ tl "ies" := by
  obtain ⟨p, c, -, rfl, rfl⟩ := rule_ies_shape h
  have : p ++ [c, 'y'] = (p ++ [c]) ++ ['y'] := by simp
  rw [this, List.dropLast_concat]

theorem mem_esSuffix {i o r : List Char} :
    (o, r) ∈ esSuffix i ↔ i = o ++ r ∧
      (o = tl "s" ∨ o = tl "sh" ∨ o = tl "ch" ∨ o = tl "x" ∨ o = tl "z") := by
  simp only [esSuffix, mem_punion, mem_acc]
  constructor
  · rintro (⟨rfl, rfl⟩ | ⟨rfl, rfl⟩ | ⟨rfl, rfl⟩ | ⟨rfl, rfl⟩ | ⟨rfl, rfl⟩) <;> simp
  · rintro ⟨rfl, rfl | rfl | rfl | rfl | rfl⟩ <;> simp

theorem rule_es_out {w o : List Char} (h : Accepts rule_es w o) : o = w ++ tl "es" := by
  rw [Accepts, rule_es, mem_pseq] at h
  obtain ⟨o1, m, o2, h1, h2, rfl⟩ := h
  rw [mem_pseq] at h2
  obtain ⟨o3, m2, o4, h3, h4, rfl⟩ := h2
  rw [NEMO_SIGMA, NEMO_CHAR, mem_star_charIn] at h1
  obtain ⟨rfl, -⟩ := h1
  rw [mem_esSuffix] at h3
  obtain ⟨rfl, -⟩ := h3
  rw [mem_pins] at h4
  obtain ⟨rfl, rfl⟩ := h4
  simp

theorem rule_s_out {w o : List Char} (h : Accepts rule_s w o) : o = w ++ tl "s" := by
  rw [Accepts, rule_s, mem_pseq] at h
  obtain ⟨o1, m, o2, h1, h2, rfl⟩ := h
  rw [NEMO_SIGMA, NEMO_CHAR, mem_star_charIn] at h1
  obtain ⟨rfl, -⟩ := h1
  rw [mem_pins] at h2
  obtain ⟨rfl, rfl⟩ := h2
  simp

theorem rule_s_total (w : List Char) : Accepts rule_s w (w ++ tl "s") := by
  rw [Accepts, rule_s, mem_pseq]
  refine ⟨w, [], tl "s", ?_, ?_, rfl⟩
  · rw [NEMO_SIGMA, NEMO_CHAR, mem_star_charIn]
    simp
  · rw [mem_pins]
    exact ⟨rfl, rfl⟩

/-! ### Characterisation of `graph_plural` along the priority chain -/

theorem accepts_of_list_eq {t r : Fst} {i o : List Char} (h : t i = r i) :
    Accepts t i o ↔ Accepts r i o := by
  rw [Accepts, Accepts, h]

theorem graph_plural_supp {supp : List Char → Option (List Char)} {w p : List Char}
    (h : supp w = some p) {o : List Char} :
    Accepts (graph_plural supp) w o ↔ o = p := by
  have hdom : Dom (suppletive supp) w := ⟨p, by simp [Accepts, suppletive, h]⟩
  rw [graph_plural, priority_union_of_dom hdom]
  simp [Accepts, suppletive, h]

theorem not_dom_suppletive {supp : List Char → Option (List Char)} {w : List Char}
    (h : supp w = none) : ¬ Dom (suppletive supp) w := by
  rintro ⟨o, ho⟩
  rw [Accepts, suppletive, h] at ho
  exact List.not_mem_nil _ ho

theorem graph_plural_ies {supp : List Char → Option (List Char)} {w : List Char}
    (h : supp w = none) (hies : Dom rule_ies w) {o : List Char} :
    Accepts (graph_plural supp) w o ↔ Accepts rule_ies w o := by
  rw [graph_plural, accepts_of_list_eq (priority_union_of_not_dom (not_dom_suppletive h)),
    priority_union_of_dom hies]

theorem graph_plural_es {supp : List Char → Option (List Char)} {w : List Char}
    (h : supp w = none) (hies : ¬ Dom rule_ies w) (hes : Dom rule_es w) {o : List Char} :
    Accepts (graph_plural supp) w o ↔ Accepts rule_es w o := by
  rw [graph_plural, accepts_of_list_eq (priority_union_of_not_dom (not_dom_suppletive h)),
    accepts_of_list_eq (priority_union_of_not_dom hies), priority_union_of_dom hes]

theorem graph_plural_s {supp : List Char → Option (List Char)} {w : List Char}
    (h : supp w = none) (hies : ¬ Dom rule_ies w) (hes : ¬ Dom rule_es w) {o : List Char} :
    Accepts (graph_plural supp) w o ↔ Accepts rule_s w o := by
  rw [graph_plural, accepts_of_list_eq (priority_union_of_not_dom (not_dom_suppletive h)),
    accepts_of_list_eq (priority_union_of_not_dom hies),
    accepts_of_list_eq (priority_union_of_not_dom hes)]

/-- On non-exception inputs `graph_plural` is a function: all accepted outputs agree. -/
theorem graph_plural_functional {supp : List Char → Option (List Char)} {w o o' : List Char}
    (h : supp w = none) (h1 : Accepts (graph_plural supp) w o)
    (h2 : Accepts (graph_plural supp) w o') : o = o' := by
  by_cases hies : Dom rule_ies w
  · rw [graph_plural_ies h hies] at h1 h2
    rw [rule_ies_out h1, rule_ies_out h2]
  · by_cases hes : Dom rule_es w
    · rw [graph_plural_es h hies hes] at h1 h2
      rw [rule_es_out h1, rule_es_out h2]
    · rw [graph_plural_s h hies hes] at h1 h2
      rw [rule_s_out h1, rule_s_out h2]

/-- On exception inputs all accepted outputs also agree (the table is a map). -/
theorem graph_plural_out_unique {supp : List Char → Option (List Char)} {w o o' : List Char}
    (h1 : Accepts (graph_plural supp) w o) (h2 : Accepts (graph_plural supp) w o') :
    o = o' := by
  cases hs : supp w with
  | none => exact graph_plural_functional hs h1 h2
  | some p =>
    rw [graph_plural_supp hs] at h1 h2
    rw [h1, h2]
/-! ### Claims about the plural transformation (C2, C6, C10) -/

/-- C2: the singular-to-plural transform applies exactly one rule in strict
priority order — (1) the suppletive exception table, else (2) consonant+y→ies,
else (3) +es on s/sh/ch/x/z, else (4) +s — no lower-priority rule firing on an
input matched by a higher-priority one; in particular "box" maps to "boxes"
via rule (3) only, and the inverse transform maps "boxes" back to "box". -/
theorem claim_C2 (supp : List Char → Option (List Char)) :
    (∀ w p o, supp w = some p → (Accepts (SINGULAR_TO_PLURAL supp) w o ↔ o = p)) ∧
    (∀ w o, supp w = none → Dom rule_ies w →
      (Accepts (SINGULAR_TO_PLURAL supp) w o ↔ Accepts rule_ies w o)) ∧
    (∀ w o, supp w = none → ¬ Dom rule_ies w → Dom rule_es w →
      (Accepts (SINGULAR_TO_PLURAL supp) w o ↔ Accepts rule_es w o)) ∧
    (∀ w o, supp w = none → ¬ Dom rule_ies w → ¬ Dom rule_es w →
      (Accepts (SINGULAR_TO_PLURAL supp) w o ↔ Accepts rule_s w o)) ∧
    (supp (tl "box") = none →
      Accepts rule_es (tl "box") (tl "boxes") ∧
      ∀ o, Accepts (SINGULAR_TO_PLURAL supp) (tl "box") o ↔ o = tl "boxes") ∧
    (supp (tl "box") = none → PLURAL_TO_SINGULAR supp (tl "boxes") (tl "box")) := by
  have hbox_es : Accepts rule_es (tl "box") (tl "boxes") := by decide
  have hbox_no_ies : ¬ Dom rule_ies (tl "box") := by
    rintro ⟨o, ho⟩
    rw [Accepts, show rule_ies (tl "box") = [] from rfl] at ho
    exact List.not_mem_nil _ ho
  have hbox : ∀ h : supp (tl "box") = none,
      ∀ o, Accepts (SINGULAR_TO_PLURAL supp) (tl "box") o ↔ o = tl "boxes" := by
    intro h o
    rw [SINGULAR_TO_PLURAL, graph_plural_es h hbox_no_ies ⟨tl "boxes", hbox_es⟩]
    constructor
    · intro ho
      exact rule_es_out ho
    · rintro rfl
      exact hbox_es
  refine ⟨?_, ?_, ?_, ?_, fun h => ⟨hbox_es, hbox h⟩, fun h => ?_⟩
  · intro w p o h
    exact graph_plural_supp h
  · intro w o h hd
    exact graph_plural_ies h hd
  · intro w o h h1 h2
    exact graph_plural_es h h1 h2
  · intro w o h h1 h2
    exact graph_plural_s h h1 h2
  · exact (hbox h (tl "box" ++ tl "es")).mpr rfl

theorem claim_C2_witness :
    suppEx (tl "box") = none ∧
    Accepts (SINGULAR_TO_PLURAL suppEx) (tl "box") (tl "boxes") ∧
    PLURAL_TO_SINGULAR suppEx (tl "boxes") (tl "box") :=
  ⟨by decide,
    ((claim_C2 suppEx).2.2.2.2.1 (by decide)).2 (tl "boxes") |>.mpr rfl,
    (claim_C2 suppEx).2.2.2.2.2 (by decide)⟩

/-- C6: on regular (non-exception) forms the plural-to-singular transform is
the exact structural inverse of singular-to-plural:
`to_plural(to_singular(to_plural w)) = to_plural w`, and the inverse transform
recovers the original singular from the plural produced by each of the three
regular rules. -/
theorem claim_C6 (supp : List Char → Option (List Char)) :
    (∀ w p s q, supp w = none →
      Accepts (SINGULAR_TO_PLURAL supp) w p → PLURAL_TO_SINGULAR supp p s →
      Accepts (SINGULAR_TO_PLURAL supp) s q → q = p) ∧
    (∀ w, supp w = none → Dom rule_ies w →
      PLURAL_TO_SINGULAR supp (w.dropLast ++ tl "ies") w) ∧
    (∀ w, supp w = none → ¬ Dom rule_ies w → Dom rule_es w →
      PLURAL_TO_SINGULAR supp (w ++ tl "es") w) ∧
    (∀ w, supp w = none → ¬ Dom rule_ies w → ¬ Dom rule_es w →
      PLURAL_TO_SINGULAR supp (w ++ tl "s") w) := by
  refine ⟨?_, ?_, ?_, ?_⟩
  · intro w p s q _ _ h3 h4
    exact graph_plural_out_unique h4 h3
  · intro w h hd
    obtain ⟨o, ho⟩ := hd
    have := rule_ies_out ho
    subst this
    exact (graph_plural_ies h ⟨_, ho⟩).mpr ho
  · intro w h h1 h2
    obtain ⟨o, ho⟩ := h2
    have := rule_es_out ho
    subst this
    exact (graph_plural_es h h1 ⟨_, ho⟩).mpr ho
  · intro w h h1 h2
    exact (graph_plural_s h h1 h2).mpr (rule_s_total w)

theorem claim_C6_witness :
    suppEx (tl "box") = none ∧
    Accepts (SINGULAR_TO_PLURAL suppEx) (tl "box") (tl "boxes") ∧
    PLURAL_TO_SINGULAR suppEx (tl "boxes") (tl "box") ∧
    tl "boxes" = tl "boxes" :=
  ⟨by decide, by decide, by decide,
    (claim_C6 suppEx).1 (tl "box") (tl "boxes") (tl "box") (tl "boxes")
      (by decide) (by decide) (by decide) (by decide)⟩

/-- C10: the singular-to-plural transform is total: the lowest-priority
default branch `_s` accepts every string, so `graph_plural` accepts every
string (the empty string included) and never yields an empty result. -/
theorem claim_C10 (supp : List Char → Option (List Char)) :
    (∀ w, Accepts rule_s w (w ++ tl "s")) ∧
    (∀ w, ∃ o, Accepts (SINGULAR_TO_PLURAL supp) w o) ∧
    (∃ o, Accepts (SINGULAR_TO_PLURAL supp) [] o) := by
  have total : ∀ w, ∃ o, Accepts (SINGULAR_TO_PLURAL supp) w o := by
    intro w
    rw [SINGULAR_TO_PLURAL]
    cases hs : supp w with
    | some p => exact ⟨p, (graph_plural_supp hs).mpr rfl⟩
    | none =>
      by_cases hies : Dom rule_ies w
      · obtain ⟨o, ho⟩ := hies
        exact ⟨o, (graph_plural_ies hs ⟨o, ho⟩).mpr ho⟩
      · by_cases hes : Dom rule_es w
        · obtain ⟨o, ho⟩ := hes
          exact ⟨o, (graph_plural_es hs hies ⟨o, ho⟩).mpr ho⟩
        · exact ⟨w ++ tl "s", (graph_plural_s hs hies hes).mpr (rule_s_total w)⟩
  exact ⟨rule_s_total, total, total []⟩
/-! ### Token framing (C1, C8) -/

theorem map_nbspFix_id {x : List Char} (h : NEMO_NON_BREAKING_SPACE ∉ x) :
    x.map nbspFix = x := by
  induction x with
  | nil => rfl
  | cons c cs ih =>
    simp only [List.map_cons, List.cons.injEq]
    constructor
    · rw [nbspFix, if_neg]
      intro hc
      exact h (hc ▸ List.mem_cons_self ..)
    · exact ih (fun hm => h (List.mem_cons_of_mem _ hm))

theorem nbsp_not_mem_map_nbspFix (u : List Char) :
    NEMO_NON_BREAKING_SPACE ∉ u.map nbspFix := by
  intro hm
  obtain ⟨c, -, hc⟩ := List.mem_map.mp hm
  rw [nbspFix] at hc
  by_cases h : c = NEMO_NON_BREAKING_SPACE
  · rw [if_pos h] at hc
    exact absurd hc (by decide)
  · rw [if_neg h] at hc
    exact h hc

/-- Any parse of `delete_tokens` carries the inner transducer's output through
the non-breaking-space rewrite; the framing itself contributes nothing. -/
theorem delete_tokens_shape {name : List Char} {t : Fst} {i o r : List Char}
    (h : (o, r) ∈ delete_tokens name t i) :
    r = [] ∧ ∃ m u ru, (u, ru) ∈ t m ∧ o = u.map nbspFix := by
  rw [delete_tokens, mem_pcompose] at h
  obtain ⟨mid, hmid, hb⟩ := h
  simp only [List.mem_singleton, Prod.mk.injEq] at hb
  obtain ⟨rfl, rfl⟩ := hb
  rw [mem_pseq] at hmid
  obtain ⟨o1, m1, o2, h1, h2, heq⟩ := hmid
  rw [mem_pdel] at h1
  obtain ⟨rfl, -⟩ := h1
  rw [mem_pseq] at h2
  obtain ⟨o3, m2, o4, h3, h4, rfl⟩ := h2
  rw [mem_delete_space] at h3
  obtain ⟨rfl, -⟩ := h3
  rw [mem_pseq] at h4
  obtain ⟨o5, m3, o6, h5, h6, rfl⟩ := h4
  rw [mem_pdel] at h5
  obtain ⟨rfl, -⟩ := h5
  rw [mem_pseq] at h6
  obtain ⟨o7, m4, o8, h7, h8, rfl⟩ := h6
  rw [mem_delete_space] at h7
  obtain ⟨rfl, -⟩ := h7
  rw [mem_pseq] at h8
  obtain ⟨u, m5, o9, hu, h9, rfl⟩ := h8
  rw [mem_pseq] at h9
  obtain ⟨o10, m6, o11, h10, h11, rfl⟩ := h9
  rw [mem_delete_space] at h10
  obtain ⟨rfl, -⟩ := h10
  rw [mem_pdel] at h11
  obtain ⟨rfl, -⟩ := h11
  simp only [List.nil_append, List.append_nil] at heq
  exact ⟨rfl, m4, u, m5, hu, by rw [heq]⟩

/-- C8: no output of a verbalize-side `delete_tokens` transducer contains the
non-breaking space U+00A0 — the trailing rewrite sends every U+00A0 produced
by the inner content to an ordinary space, undoing `convert_space`. -/
theorem claim_C8 (name : List Char) (t : Fst) (i o r : List Char)
    (h : (o, r) ∈ delete_tokens name t i) : NEMO_NON_BREAKING_SPACE ∉ o := by
  obtain ⟨-, m, u, ru, -, rfl⟩ := delete_tokens_shape h
  exact nbsp_not_mem_map_nbspFix u

theorem claim_C8_witness :
    ((tl "a", []) ∈ delete_tokens (tl "t") (acc (tl "a")) (tl "t \x7b a \x7d")) ∧
    NEMO_NON_BREAKING_SPACE ∉ tl "a" :=
  ⟨by decide, claim_C8 (tl "t") (acc (tl "a")) (tl "t \x7b a \x7d") (tl "a") [] (by decide)⟩

/-- C1 fails as stated: for the valid field content `a<nbsp>b`, the round trip
`delete_tokens(add_tokens(x))` relates `x` to `a b` (the non-breaking space is
rewritten), not to `x` itself. -/
theorem claim_C1_counterexample :
    round_trip (tl "date") c1x c1x (tl "a b") ∧ ¬ round_trip (tl "date") c1x c1x c1x := by
  constructor
  · exact ⟨wrapS (tl "date") c1x, by decide, by decide⟩
  · rintro ⟨m, h1, h2⟩
    have hm : m = wrapS (tl "date") c1x := by
      rw [Accepts, show add_tokens (tl "date") (acc c1x) c1x =
        [(wrapS (tl "date") c1x, [])] from rfl] at h1
      simpa using h1
    subst hm
    revert h2
    decide

/-- C1 amended: for every field content `x` containing no non-breaking space,
the round trip `delete_tokens(add_tokens(x))` relates `x` to exactly `x`. -/
theorem claim_C1_round_trip (name x : List Char) (h : NEMO_NON_BREAKING_SPACE ∉ x) :
    ∀ o, round_trip name x x o ↔ o = x := by
  intro o
  constructor
  · rintro ⟨m, -, h2⟩
    obtain ⟨-, m', u, ru, hu, rfl⟩ := delete_tokens_shape h2
    rw [mem_acc] at hu
    obtain ⟨rfl, -⟩ := hu
    exact map_nbspFix_id h
  · intro ho
    rw [ho]
    refine ⟨wrapS name x, ?_, ?_⟩
    · rw [Accepts, add_tokens, mem_pseq]
      refine ⟨name ++ tl " \x7b ", x, x ++ tl " \x7d", mem_pins.mpr ⟨rfl, rfl⟩, ?_, ?_⟩
      · rw [mem_pseq]
        exact ⟨x, [], tl " \x7d", mem_acc.mpr ⟨rfl, by simp⟩, mem_pins.mpr ⟨rfl, rfl⟩, rfl⟩
      · rw [wrapS]
        simp
    · rw [Accepts, delete_tokens, mem_pcompose]
      refine ⟨x, ?_, by simp [map_nbspFix_id h]⟩
      rw [mem_pseq]
      refine ⟨[], tl " \x7b " ++ x ++ tl " \x7d", x, ?_, ?_, rfl⟩
      · rw [mem_pdel]
        exact ⟨rfl, by rw [wrapS]; simp⟩
      · rw [mem_pseq]
        refine ⟨[], tl "\x7b " ++ x ++ tl " \x7d", x, ?_, ?_, rfl⟩
        · rw [mem_delete_space]
          exact ⟨rfl, [' '], by simp [tl], by decide⟩
        · rw [mem_pseq]
          refine ⟨[], tl " " ++ x ++ tl " \x7d", x, ?_, ?_, rfl⟩
          · rw [mem_pdel]
            exact ⟨rfl, by simp [tl]⟩
          · rw [mem_pseq]
            refine ⟨[], x ++ tl " \x7d", x, ?_, ?_, rfl⟩
            · rw [mem_delete_space]
              exact ⟨rfl, [' '], by simp [tl], by decide⟩
            · rw [mem_pseq]
              refine ⟨x, tl " \x7d", [], mem_acc.mpr ⟨rfl, by simp⟩, ?_, by simp⟩
              rw [mem_pseq]
              refine ⟨[], tl "\x7d", [], ?_, mem_pdel.mpr ⟨rfl, by simp⟩, rfl⟩
              rw [mem_delete_space]
              exact ⟨rfl, [' '], by simp [tl], by decide⟩

theorem claim_C1_round_trip_witness :
    (NEMO_NON_BREAKING_SPACE ∉ tl "abc") ∧
    (round_trip (tl "date") (tl "abc") (tl "abc") (tl "abc") ↔ tl "abc" = tl "abc") :=
  ⟨by decide, claim_C1_round_trip (tl "date") (tl "abc") (by decide) (tl "abc")⟩
/-! ### The Spanish date verbalizer (C3, C4) -/

/-- C4: on the record `date { day: "1" month: "enero" preserve_order: true }`
the Spanish date verbalizer outputs exactly `1 de enero`, and nothing else. -/
theorem claim_C4 :
    Accepts EsDate.dateFst dateRecDM (tl "1 de enero") ∧
    (((EsDate.dateFst dateRecDM).filter (fun p => p.2.isEmpty)).map Prod.fst).dedup
      = [tl "1 de enero"] :=
  ⟨by decide, by decide⟩

/-- C3 fails as stated: the record `date { month: "enero" day: "1"
preserve_order: true }` carries the `preserve_order` marker and lists its
fields in month-day literal order, yet the Spanish date verbalizer does not
accept it at all (it has no complete accepting path). -/
theorem claim_C3_counterexample :
    (EsDate.dateFst dateRecMD).filter (fun p => p.2.isEmpty) = [] ∧
    ¬ Accepts EsDate.dateFst dateRecMD (tl "enero de 1") ∧
    ¬ Accepts EsDate.dateFst dateRecMD (tl "1 de enero") :=
  ⟨by decide, by decide, by decide⟩

/-- C3 amended: the trailing `preserve_order: true` marker is merely deleted
and does not constrain or change field order — the Spanish date verbalizer
accepts exactly the grammar's fixed day-month order with the same output
whether or not the marker is present, and rejects month-day literal order
whether or not the marker is present. -/
theorem claim_C3_amended :
    (((EsDate.dateFst dateRecDM).filter (fun p => p.2.isEmpty)).map Prod.fst).dedup
      = (((EsDate.dateFst dateRecDMPlain).filter (fun p => p.2.isEmpty)).map Prod.fst).dedup ∧
    Accepts EsDate.dateFst dateRecDM (tl "1 de enero") ∧
    Accepts EsDate.dateFst dateRecDMPlain (tl "1 de enero") ∧
    (EsDate.dateFst dateRecMD).filter (fun p => p.2.isEmpty) = [] ∧
    (EsDate.dateFst dateRecMDPlain).filter (fun p => p.2.isEmpty) = [] :=
  ⟨by decide, by decide, by decide, by decide, by decide⟩

/-! ### Capitalization-invariant input (C5, C7) -/

theorem mem_TO_LOWER {i o r : List Char} :
    (o, r) ∈ TO_LOWER i ↔
      ∃ p ∈ ascii_uppercase.zip ascii_lowercase, i = p.1 :: r ∧ o = [p.2] := by
  simp only [TO_LOWER, List.mem_flatMap]
  constructor
  · rintro ⟨p, hp, hm⟩
    rw [mem_cross] at hm
    exact ⟨p, hp, by simpa using hm.2, hm.1⟩
  · rintro ⟨p, hp, rfl, rfl⟩
    exact ⟨p, hp, mem_cross.mpr ⟨rfl, rfl⟩⟩

theorem upper_lower_key :
    ∀ c ∈ ascii_lowercase,
      (c.toUpper, c) ∈ ascii_uppercase.zip ascii_lowercase ∧
      ∀ p ∈ ascii_uppercase.zip ascii_lowercase, p.1 = c.toUpper → p.2 = c := by decide

/-- The lowering stage `TO_LOWER + NEMO_SIGMA` maps the capitalisation of a
lower-case-initial string back to exactly that string. -/
theorem lower_stage_exact {c : Char} {rest m : List Char} (hc : c ∈ ascii_lowercase) :
    (m, []) ∈ pseq TO_LOWER NEMO_SIGMA (c.toUpper :: rest) ↔ m = c :: rest := by
  obtain ⟨hmem, huniq⟩ := upper_lower_key c hc
  rw [mem_pseq]
  constructor
  · rintro ⟨o1, mm, o2, h1, h2, rfl⟩
    rw [mem_TO_LOWER] at h1
    obtain ⟨p, hp, hi, rfl⟩ := h1
    obtain ⟨hp1, hmm⟩ := List.cons.injEq .. ▸ hi
    rw [mem_sigma] at h2
    rw [List.append_nil] at h2
    rw [huniq p hp hp1.symm, ← h2, ← hmm]
    rfl
  · rintro rfl
    refine ⟨[c], rest, rest, ?_, ?_, rfl⟩
    · rw [mem_TO_LOWER]
      exact ⟨(c.toUpper, c), hmem, rfl, rfl⟩
    · rw [mem_sigma]
      simp

/-- C5: if a base grammar `g` accepts `s` (beginning with a lower-case letter)
with output `o`, then `capitalized_input_graph(g)` accepts
`capitalize_first_letter(s)` with the same output; indeed its capitalized
branch accepts `capitalize_first_letter(s)` with exactly the outputs `g`
produces on `s`. -/
theorem claim_C5 (g : Fst) (s o : List Char) (c : Char) (rest : List Char)
    (hs : s = c :: rest) (hc : c ∈ ascii_lowercase) (hacc : Accepts g s o) :
    Accepts (capitalized_input_graph g) (capitalize_first_letter s) o ∧
    ∀ o', Accepts (pcompose (pseq TO_LOWER NEMO_SIGMA) g) (capitalize_first_letter s) o' ↔
      Accepts g s o' := by
  subst hs
  have hcap : capitalize_first_letter (c :: rest) = c.toUpper :: rest := rfl
  have hbranch : ∀ o', Accepts (pcompose (pseq TO_LOWER NEMO_SIGMA) g)
      (capitalize_first_letter (c :: rest)) o' ↔ Accepts g (c :: rest) o' := by
    intro o'
    rw [hcap, Accepts, mem_pcompose]
    constructor
    · rintro ⟨m, hm, hg⟩
      rw [lower_stage_exact hc] at hm
      rw [hm] at hg
      exact hg
    · intro hg
      exact ⟨c :: rest, (lower_stage_exact hc).mpr rfl, hg⟩
  refine ⟨?_, hbranch⟩
  rw [Accepts, capitalized_input_graph, mem_punion]
  exact Or.inr ((hbranch o).mpr hacc)

theorem claim_C5_witness :
    tl "ab" = 'a' :: tl "b" ∧ 'a' ∈ ascii_lowercase ∧
    Accepts (cross (tl "ab") (tl "X")) (tl "ab") (tl "X") ∧
    Accepts (capitalized_input_graph (cross (tl "ab") (tl "X")))
      (capitalize_first_letter (tl "ab")) (tl "X") :=
  ⟨rfl, by decide, by decide,
    (claim_C5 (cross (tl "ab") (tl "X")) (tl "ab") (tl "X") 'a' (tl "b") rfl
      (by decide) (by decide)).1⟩

theorem waccepts_add_weight {t : WFst} {w : ℚ} {i o : List Char} :
    WAccepts (add_weight t w) i o ↔ WAccepts t i o := by
  simp only [WAccepts, add_weight, List.mem_map]
  constructor
  · rintro ⟨cst, ⟨⟨o', r'⟩, c'⟩, hm, heq⟩
    have h1 : o' = o ∧ r' = [] := by
      have := congrArg Prod.fst heq
      simpa using this
    obtain ⟨rfl, rfl⟩ := h1
    exact ⟨c', hm⟩
  · rintro ⟨cst, hm⟩
    exact ⟨cst + w, ((o, []), cst), hm, rfl⟩

theorem waccepts_wunion {a b : WFst} {i o : List Char} :
    WAccepts (wunion a b) i o ↔ WAccepts a i o ∨ WAccepts b i o := by
  simp only [WAccepts, wunion, List.mem_append]
  constructor
  · rintro ⟨c, hc | hc⟩
    · exact Or.inl ⟨c, hc⟩
    · exact Or.inr ⟨c, hc⟩
  · rintro (⟨c, hc⟩ | ⟨c, hc⟩)
    · exact ⟨c, Or.inl hc⟩
    · exact ⟨c, Or.inr hc⟩

/-- C7: the optional `original_graph_weight` / `capitalized_graph_weight`
parameters of `capitalized_input_graph` change only path costs, never the
accepted (input, output) pairs: the relation equals the unweighted one for
every choice of the two parameters. -/
theorem claim_C7 (g : WFst) (ow cw : Option ℚ) (i o : List Char) :
    WAccepts (capitalized_input_graph_w g ow cw) i o ↔
      WAccepts (capitalized_input_graph_w g none none) i o := by
  unfold capitalized_input_graph_w
  cases ow with
  | none =>
    cases cw with
    | none => exact Iff.rfl
    | some w =>
      simp only
      rw [waccepts_wunion, waccepts_wunion, waccepts_add_weight]
  | some w =>
    cases cw with
    | none =>
      simp only
      rw [waccepts_wunion, waccepts_wunion, waccepts_add_weight]
    | some w' =>
      simp only
      rw [waccepts_wunion, waccepts_wunion, waccepts_add_weight, waccepts_add_weight]
/-! ### The sentence-level verbalizer (C9) -/

theorem fstLike_cross (x y : List Char) : FstLike (cross x y) := by
  intro i o r
  rw [mem_cross]
  constructor
  · rintro ⟨rfl, rfl⟩
    exact ⟨x, rfl, mem_cross.mpr ⟨rfl, by simp⟩⟩
  · rintro ⟨c, rfl, hm⟩
    rw [mem_cross] at hm
    obtain ⟨rfl, h2⟩ := hm
    rw [List.append_nil] at h2
    exact ⟨rfl, by rw [h2]⟩

theorem flatten_join (os : List (List Char)) (last : List Char) :
    (os.map (fun u => u ++ [' '])).flatten ++ last = joinSp (os ++ [last]) := by
  induction os with
  | nil => simp [joinSp]
  | cons a os ih =>
    cases os with
    | nil => simp [joinSp]
    | cons b os' =>
      have h3 : joinSp (a :: (b :: (os' ++ [last]))) = a ++ ' ' :: joinSp (b :: (os' ++ [last])) :=
        rfl
      simp only [List.cons_append] at h3 ih ⊢
      rw [h3, ← ih]
      simp

/-- Any parse of one token block outputs exactly a complete verbalization of
some block content. -/
theorem tokenBlock_shape {types : Fst} (hT : FstLike types) {i o r : List Char}
    (h : (o, r) ∈ HiVerbalize.tokenBlock types i) : ∃ c, Accepts types c o := by
  rw [HiVerbalize.tokenBlock, mem_pseq] at h
  obtain ⟨o1, m1, o2, h1, h2, rfl⟩ := h
  rw [mem_pdel] at h1
  obtain ⟨rfl, -⟩ := h1
  rw [mem_pseq] at h2
  obtain ⟨o3, m2, o4, h3, h4, rfl⟩ := h2
  rw [mem_delete_space] at h3
  obtain ⟨rfl, -⟩ := h3
  rw [mem_pseq] at h4
  obtain ⟨o5, m3, o6, h5, h6, rfl⟩ := h4
  rw [mem_pdel] at h5
  obtain ⟨rfl, -⟩ := h5
  rw [mem_pseq] at h6
  obtain ⟨o7, m4, o8, h7, h8, rfl⟩ := h6
  rw [mem_delete_space] at h7
  obtain ⟨rfl, -⟩ := h7
  rw [mem_pseq] at h8
  obtain ⟨u, m5, o9, hu, h9, rfl⟩ := h8
  rw [mem_pseq] at h9
  obtain ⟨o10, m6, o11, h10, h11, rfl⟩ := h9
  rw [mem_delete_space] at h10
  obtain ⟨rfl, -⟩ := h10
  rw [mem_pdel] at h11
  obtain ⟨rfl, -⟩ := h11
  rw [hT] at hu
  obtain ⟨c, -, hc⟩ := hu
  exact ⟨c, by simpa [Accepts] using hc⟩

/-- Outputs of the starred `block + delete_extra_space` part: a list of block
verbalizations, each followed by exactly one space. -/
theorem star_blocks_shape {types : Fst} (hT : FstLike types) {i o r : List Char}
    (h : StarRun (pseq (HiVerbalize.tokenBlock types) delete_extra_space) i o r) :
    ∃ os : List (List Char), o = (os.map (fun u => u ++ [' '])).flatten ∧
      ∀ u ∈ os, ∃ c, Accepts types c u := by
  induction h with
  | nil i => exact ⟨[], rfl, by simp⟩
  | cons hm _ _ ih =>
    obtain ⟨os, rfl, hos⟩ := ih
    rw [mem_pseq] at hm
    obtain ⟨u, m1, sp, hu, hsp, rfl⟩ := hm
    rw [mem_delete_extra_space] at hsp
    obtain ⟨rfl, -⟩ := hsp
    obtain ⟨c, hc⟩ := tokenBlock_shape hT hu
    refine ⟨u :: os, by simp, ?_⟩
    intro v hv
    rcases List.mem_cons.mp hv with rfl | hv'
    · exact ⟨c, hc⟩
    · exact hos v hv'

/-- Every complete output of the sentence verbalizer is some nonempty list of
block verbalizations joined by exactly one space. -/
theorem verbalize_final_shape {types : Fst} (hT : FstLike types) {i o : List Char}
    (h : Accepts (HiVerbalize.verbalize_final types) i o) :
    ∃ os, os ≠ [] ∧ o = joinSp os ∧ ∀ u ∈ os, ∃ c, Accepts types c u := by
  rw [Accepts, HiVerbalize.verbalize_final, mem_pseq] at h
  obtain ⟨o1, m1, o2, h1, h2, rfl⟩ := h
  rw [mem_delete_space] at h1
  obtain ⟨rfl, -⟩ := h1
  rw [mem_pseq] at h2
  obtain ⟨ostar, m2, o4, h3, h4, rfl⟩ := h2
  rw [mem_star] at h3
  obtain ⟨os, rfl, hos⟩ := star_blocks_shape hT h3
  rw [mem_pseq] at h4
  obtain ⟨ulast, m3, o6, h5, h6, rfl⟩ := h4
  rw [mem_delete_space] at h6
  obtain ⟨rfl, -⟩ := h6
  obtain ⟨clast, hclast⟩ := tokenBlock_shape hT h5
  refine ⟨os ++ [ulast], by simp, ?_, ?_⟩
  · rw [← flatten_join]
    simp
  · intro v hv
    rcases List.mem_append.mp hv with hv' | hv'
    · exact hos v hv'
    · rw [List.mem_singleton] at hv'
      subst hv'
      exact ⟨clast, hclast⟩

/-- One token block parses off the front of its canonical text. -/
theorem tokenBlock_mem {types : Fst} (hT : FstLike types) {c u : List Char}
    (hc : Accepts types c u) (rest : List Char) :
    (u, rest) ∈ HiVerbalize.tokenBlock types (tokensBlockText c ++ rest) := by
  rw [HiVerbalize.tokenBlock, mem_pseq]
  refine ⟨[], tl " \x7b " ++ c ++ tl " \x7d" ++ rest, u, ?_, ?_, by simp⟩
  · rw [mem_pdel]
    refine ⟨rfl, ?_⟩
    rw [tokensBlockText]
    simp [tl]
  · rw [mem_pseq]
    refine ⟨[], tl "\x7b " ++ c ++ tl " \x7d" ++ rest, u, ?_, ?_, rfl⟩
    · rw [mem_delete_space]
      exact ⟨rfl, [' '], by simp [tl], by decide⟩
    · rw [mem_pseq]
      refine ⟨[], tl " " ++ c ++ tl " \x7d" ++ rest, u, ?_, ?_, rfl⟩
      · rw [mem_pdel]
        exact ⟨rfl, by simp [tl]⟩
      · rw [mem_pseq]
        refine ⟨[], c ++ (tl " \x7d" ++ rest), u, ?_, ?_, rfl⟩
        · rw [mem_delete_space]
          exact ⟨rfl, [' '], by simp [tl], by decide⟩
        · rw [mem_pseq]
          refine ⟨u, tl " \x7d" ++ rest, [], ?_, ?_, by simp⟩
          · rw [hT]
            exact ⟨c, rfl, hc⟩
          · rw [mem_pseq]
            refine ⟨[], tl "\x7d" ++ rest, [], ?_, ?_, rfl⟩
            · rw [mem_delete_space]
              exact ⟨rfl, [' '], by simp [tl], by decide⟩
            · rw [mem_pdel]
              exact ⟨rfl, by simp [tl]⟩

theorem tokensBlockText_ne_nil (c : List Char) : tokensBlockText c ≠ [] := by
  rw [tokensBlockText]
  simp [tl]

/-- The starred part accepts every whitespace-separated sequence of blocks,
emitting each block's verbalization followed by one space. -/
theorem star_blocks_mem {types : Fst} (hT : FstLike types) :
    ∀ (ps : List (List Char × List Char × List Char)) (clast wlast : List Char),
      (∀ t ∈ ps, Accepts types t.1 t.2.1 ∧ t.2.2 ≠ [] ∧ WsOnly t.2.2) →
      ((ps.map (fun t => t.2.1 ++ [' '])).flatten, tokensBlockText clast ++ wlast) ∈
        star (pseq (HiVerbalize.tokenBlock types) delete_extra_space)
          (sentText ps clast wlast) := by
  intro ps
  induction ps with
  | nil =>
    intro clast wlast _
    rw [mem_star, sentText]
    exact StarRun.nil _
  | cons t ps ih =>
    intro clast wlast hall
    obtain ⟨c, u, w⟩ := t
    obtain ⟨hu, hwne, hws⟩ := hall (c, u, w) (List.mem_cons_self ..)
    rw [mem_star, sentText]
    have step : (u ++ [' '], sentText ps clast wlast) ∈
        pseq (HiVerbalize.tokenBlock types) delete_extra_space
          (tokensBlockText c ++ w ++ sentText ps clast wlast) := by
      rw [mem_pseq]
      refine ⟨u, w ++ sentText ps clast wlast, [' '], ?_, ?_, rfl⟩
      · have := tokenBlock_mem hT hu (w ++ sentText ps clast wlast)
        simpa [List.append_assoc] using this
      · rw [mem_delete_extra_space]
        exact ⟨rfl, w, rfl, hwne, hws⟩
    have hlt : (sentText ps clast wlast).length <
        (tokensBlockText c ++ w ++ sentText ps clast wlast).length := by
      simp only [List.length_append]
      have : 0 < (tokensBlockText c).length :=
        List.length_pos_iff_ne_nil.mpr (tokensBlockText_ne_nil c)
      omega
    have tail := ih clast wlast (fun t ht => hall t (List.mem_cons_of_mem _ ht))
    rw [mem_star] at tail
    simpa using StarRun.cons step hlt tail

/-- The sentence verbalizer accepts every whitespace-separated block sentence,
with the single-space join of the per-block verbalizations as output. -/
theorem verbalize_final_mem {types : Fst} (hT : FstLike types)
    (ps : List (List Char × List Char × List Char)) (clast ulast w0 wlast : List Char)
    (hall : ∀ t ∈ ps, Accepts types t.1 t.2.1 ∧ t.2.2 ≠ [] ∧ WsOnly t.2.2)
    (hlast : Accepts types clast ulast) (hw0 : WsOnly w0) (hwlast : WsOnly wlast) :
    Accepts (HiVerbalize.verbalize_final types) (w0 ++ sentText ps clast wlast)
      (joinSp (ps.map (fun t => t.2.1) ++ [ulast])) := by
  have hmap : (ps.map (fun t => t.2.1)).map (fun u => u ++ [' '])
      = ps.map (fun t => t.2.1 ++ [' ']) := by
    simp
  rw [Accepts, HiVerbalize.verbalize_final, mem_pseq]
  refine ⟨[], sentText ps clast wlast,
    (ps.map (fun t => t.2.1 ++ [' '])).flatten ++ ulast, ?_, ?_, ?_⟩
  · rw [mem_delete_space]
    exact ⟨rfl, w0, rfl, hw0⟩
  · rw [mem_pseq]
    refine ⟨(ps.map (fun t => t.2.1 ++ [' '])).flatten, tokensBlockText clast ++ wlast,
      ulast, star_blocks_mem hT ps clast wlast hall, ?_, rfl⟩
    rw [mem_pseq]
    refine ⟨ulast, wlast, [], tokenBlock_mem hT hlast wlast, ?_, by simp⟩
    rw [mem_delete_space]
    exact ⟨rfl, wlast, by simp, hwlast⟩
  · rw [List.nil_append, ← hmap, flatten_join]

theorem joinSp_noEdgeWs :
    ∀ os : List (List Char), os ≠ [] → (∀ u ∈ os, NoEdgeWs u) → NoEdgeWs (joinSp os) := by
  intro os
  induction os with
  | nil => intro h; exact absurd rfl h
  | cons a os ih =>
    intro _ hall
    cases os with
    | nil =>
      rw [joinSp]
      exact hall a (List.mem_cons_self ..)
    | cons b os' =>
      obtain ⟨hane, hahead, halast⟩ := hall a (List.mem_cons_self ..)
      have hrec : NoEdgeWs (joinSp (b :: os')) :=
        ih (by simp) (fun u hu => hall u (List.mem_cons_of_mem _ hu))
      obtain ⟨hjne, hjhead, hjlast⟩ := hrec
      rw [joinSp]
      refine ⟨by simp [hane], ?_, ?_⟩
      · intro c hc
        cases a with
        | nil => exact absurd rfl hane
        | cons a0 a' =>
          simp only [List.cons_append, List.head?_cons, Option.some.injEq] at hc
          subst hc
          exact hahead a0 rfl
      · intro c hc
        rw [List.getLast?_append_of_ne_nil _ (by simp)] at hc
        rw [show (' ' :: joinSp (b :: os')) = [' '] ++ joinSp (b :: os') from rfl,
          List.getLast?_append_of_ne_nil _ hjne] at hc
        exact hjlast c hc
/-- C9: for a sentence of `n ≥ 1` whitespace-separated `tokens { ... }` blocks
(optional leading/trailing whitespace), the sentence verbalizer outputs the
per-block verbalizations joined by exactly one space between adjacent blocks:
every complete output is such a join of block verbalizations, every such
sentence is accepted with exactly that join as output, and the join of
edge-whitespace-free block outputs has no leading or trailing whitespace. -/
theorem claim_C9 (types : Fst) (hT : FstLike types) :
    (∀ i o, Accepts (HiVerbalize.verbalize_final types) i o →
      ∃ os, os ≠ [] ∧ o = joinSp os ∧ ∀ u ∈ os, ∃ c, Accepts types c u) ∧
    (∀ (ps : List (List Char × List Char × List Char)) (clast ulast w0 wlast : List Char),
      (∀ t ∈ ps, Accepts types t.1 t.2.1 ∧ t.2.2 ≠ [] ∧ WsOnly t.2.2) →
      Accepts types clast ulast → WsOnly w0 → WsOnly wlast →
      Accepts (HiVerbalize.verbalize_final types) (w0 ++ sentText ps clast wlast)
        (joinSp (ps.map (fun t => t.2.1) ++ [ulast]))) ∧
    (∀ os : List (List Char), os ≠ [] → (∀ u ∈ os, NoEdgeWs u) → NoEdgeWs (joinSp os)) :=
  ⟨fun _ _ h => verbalize_final_shape hT h,
   fun ps clast ulast w0 wlast hall hlast hw0 hwlast =>
     verbalize_final_mem hT ps clast ulast w0 wlast hall hlast hw0 hwlast,
   joinSp_noEdgeWs⟩

theorem claim_C9_witness :
    Accepts (HiVerbalize.verbalize_final (cross (tl "x") (tl "y")))
      ([' '] ++ sentText [(tl "x", tl "y", [' '])] (tl "x") [' '])
      (joinSp ([(tl "x", tl "y", [' '])].map (fun t => t.2.1) ++ [tl "y"])) :=
  (claim_C9 (cross (tl "x") (tl "y")) (fstLike_cross (tl "x") (tl "y"))).2.1
    [(tl "x", tl "y", [' '])] (tl "x") (tl "y") [' '] [' ']
    (by decide) (by decide) (by decide) (by decide)
